import Mathlib

/-!
# Verification of the go-git tree core

A shallow embedding of the tree object model of this repository:
the tree binary codec (`Tree.Decode` / `Tree.Encode`), the lazily
built name→entry index, the path resolver (`Tree.findEntry`,
`Tree.dir`, `Tree.File`), `File.Lines`, the depth-limited tree
walker, and the filtered iterators (`FileIter` / `TreeIter`) with
their `ForEach` drivers.

Go strings are byte strings, so names, paths and object bodies are
modelled uniformly as `List Nat` (one `Nat` per byte).  Machine
integers are modelled as `Nat`/`Int` with explicit `% 2^32` where the
Go code converts to the 32-bit `os.FileMode`.  Fallible code returns
`Except`/`Option`; a Go routine that both mutates its receiver and
returns an error is modelled by explicit state passing, returning the
updated receiver next to the result.
-/

namespace GoGit

/-- The distinct Go error values reachable in this code.  Go compares
errors by identity, so an inductive of the named error values is
faithful; `custom n` stands for an arbitrary caller-supplied error
(used by `ForEach` callbacks). -/
inductive GoErr where
  | eof
  | errUnexpectedEOF
  | errStop
  | errMaxTreeDepth
  | errFileNotFound
  | errDirNotFound
  | errEntryNotFound
  | errUnsupportedObject
  | errObjectNotFound
  | errRange
  | errSyntax
  | panicSliceBounds
  | custom (n : Nat)
  deriving DecidableEq, Repr

/-- Modelled from the spec: object kinds of the storage contract
("blobs, trees, and other object kinds"); `core.ObjectType` itself is
not under src/, only its uses are.  The two extra kinds, commit and
tag, are the other object kinds of the object model. -/
inductive ObjectType where
  | commit
  | tree
  | blob
  | tag
  deriving DecidableEq, Repr

/-- Modelled from the spec: the `core.Object` capability (kind, size,
readable/writable byte body, content hash); its Go declaration is not
under src/.  The declared size of a stored object is the length of
its body, so `Size()` is modelled as `content.length`. -/
structure Object where
  type : ObjectType
  hash : List Nat
  content : List Nat
  deriving DecidableEq, Repr

/-- Modelled from the spec: `core.ObjectStorage` (src/core/storage.go
declares only the interface).  `Get` fails with the distinguishable
not-found condition exactly when the hash is absent, so a storage is
a partial map from hashes to objects. -/
def Storage : Type := List Nat → Option Object

/-- `ObjectStorage().Get`: absent hash ↦ `core.ErrObjectNotFound`. -/
def Storage.get (s : Storage) (h : List Nat) : Except GoErr Object :=
  match s h with
  | none => .error .errObjectNotFound
  | some o => .ok o

/-- src tree.go: `maxTreeDepth = 1024`. -/
def maxTreeDepth : Nat := 1024

/-- TreeEntry represents a file: name, 32-bit `os.FileMode`, hash of
the referenced object (a 20-byte `core.Hash` in Go). -/
structure TreeEntry where
  Name : List Nat
  Mode : Nat
  Hash : List Nat
  deriving DecidableEq, Repr

/-- Tree: ordered entry list, its own hash, and the lazily built
name→entry index `m` (Go `map[string]*TreeEntry`, modelled as a
function once built; `none` = not yet built). -/
structure Tree where
  Entries : List TreeEntry
  Hash : List Nat
  m : Option (List Nat → Option TreeEntry)

/-- A fresh `&Tree{}`: zero-valued fields (the zero `core.Hash` is 20
zero bytes). -/
def freshTree : Tree := ⟨[], List.replicate 20 0, none⟩

/-- `os.ModeDir` (bit 31 of the 32-bit FileMode). -/
def modeDirBit : Nat := 2 ^ 31

/-- `os.ModeSymlink` (bit 27 of the 32-bit FileMode). -/
def modeSymlinkBit : Nat := 2 ^ 27

/-! ## Byte-stream reading primitives (bufio.Reader / io.ReadFull) -/

/-- `bufio.Reader.ReadString(d)` when the delimiter is found: returns
the bytes up to and including `d` together with the remaining input;
`none` when the input runs out first (Go returns the partial data
with `io.EOF`). -/
def breakByte (d : Nat) : List Nat → Option (List Nat × List Nat)
  | [] => none
  | b :: bs =>
    if b = d then some ([b], bs)
    else
      match breakByte d bs with
      | none => none
      | some (xs, r) => some (b :: xs, r)

/-- `ReadString(d)` including the EOF case: when the delimiter is
missing the whole rest of the input is returned as data (Go's partial
read) and the remaining input is empty. -/
def readStr (d : Nat) (bs : List Nat) : List Nat × List Nat :=
  match breakByte d bs with
  | some p => p
  | none => (bs, [])

/-- `io.ReadFull` into an `n`-byte buffer: `io.EOF` when no byte is
available, `io.ErrUnexpectedEOF` on a short read. -/
def readFull (n : Nat) (bs : List Nat) : Except GoErr (List Nat × List Nat) :=
  if bs.length < n then
    .error (if bs.length = 0 then .eof else .errUnexpectedEOF)
  else
    .ok (bs.take n, bs.drop n)

/-! ## strconv.ParseInt(mode, 8, 32) -/

/-- The digit-accumulation loop of `strconv.ParseUint` with base 8 and
bitSize 32: a non-octal-digit byte is a syntax error, exceeding the
32-bit unsigned range is a range error, both reported at the first
offending digit. -/
def parseOctLoop : List Nat → Nat → Except GoErr Nat
  | [], a => .ok a
  | d :: ds, a =>
    if d < 48 ∨ 55 < d then .error .errSyntax
    else if a * 8 + (d - 48) > 2 ^ 32 - 1 then .error .errRange
    else parseOctLoop ds (a * 8 + (d - 48))

/-- The sign handling of `strconv.ParseInt`: an optional leading `+`
or `-` byte before the digits. -/
def stripSign : List Nat → Bool × List Nat
  | 43 :: rest => (false, rest)
  | 45 :: rest => (true, rest)
  | s => (false, s)

/-- `strconv.ParseInt(s, 8, 32)`: optional sign, octal digits, then
the signed 32-bit range check (positive values must stay below 2^31,
`-2^31` is still in range). -/
def goParseOctInt32 (s : List Nat) : Except GoErr Int :=
  let neg := (stripSign s).1
  let digits := (stripSign s).2
  if digits.isEmpty then .error .errSyntax
  else
    match parseOctLoop digits 0 with
    | .error e => .error e
    | .ok v =>
      if neg = false ∧ 2 ^ 31 ≤ v then .error .errRange
      else if neg = true ∧ 2 ^ 31 < v then .error .errRange
      else .ok (if neg then -(v : Int) else (v : Int))

/-- src tree.go `Tree.decodeFileMode`: parse the octal mode string as
a 32-bit int, convert to the unsigned 32-bit `os.FileMode` (`% 2^32`),
and or in `os.ModeDir` when the parsed value is `0040000`,
`os.ModeSymlink` when it is `0120000`. -/
def decodeFileMode (mode : List Nat) : Except GoErr Nat :=
  match goParseOctInt32 mode with
  | .error e => .error e
  | .ok fm =>
    let m : Nat := (fm % (2 ^ 32 : Int)).toNat
    .ok (if fm = 0o40000 then m ||| modeDirBit
         else if fm = 0o120000 then m ||| modeSymlinkBit
         else m)

/-! ## Tree.Decode -/

/-- The record loop of src tree.go `Tree.Decode`: read the mode up to
the space (a missing space breaks the loop, silently discarding any
partial data, as `bufio` reports `io.EOF` there), decode the mode,
read the name up to the NUL (an `io.EOF` here is tolerated), then
read the 20 raw hash bytes.  On an error the entries appended so far
are kept, matching the in-place mutation of the receiver.  Reading
the name at end of input yields the empty string and Go's
`name[:len(name)-1]` then panics with a slice-bounds violation,
modelled as the dedicated `panicSliceBounds` outcome. -/
def decodeEntriesGo : Nat → List Nat → List TreeEntry →
    List TreeEntry × Option GoErr
  | 0, _, acc => (acc, none)
  | fuel + 1, bs, acc =>
    match breakByte 32 bs with
    | none => (acc, none)
    | some (modeSp, rest1) =>
      match decodeFileMode modeSp.dropLast with
      | .error e => (acc, some e)
      | .ok fm =>
        let nr := readStr 0 rest1
        if nr.1.isEmpty then (acc, some .panicSliceBounds)
        else
          let baseName := nr.1.dropLast
          match readFull 20 nr.2 with
          | .error e => (acc, some e)
          | .ok (hsh, rest3) =>
            decodeEntriesGo fuel rest3 (acc ++ [⟨baseName, fm, hsh⟩])

/-- The record loop with the fuel fixed to one more than the input
length; `decodeEntriesGo_fuel` below shows that bound keeps the fuel
from ever running out, since every parsed record consumes at least
the space byte. -/
def decodeEntries (bs : List Nat) (acc : List TreeEntry) :
    List TreeEntry × Option GoErr :=
  decodeEntriesGo (bs.length + 1) bs acc

/-- src tree.go `Tree.Decode`: a non-tree object is refused as
`ErrUnsupportedObject` before any input is consumed; the receiver's
hash is set; a zero-size body returns immediately (entries and index
untouched); otherwise entries and index are reset and the record loop
runs.  Returns the updated receiver next to the error slot, since the
Go method mutates the receiver in place even when it fails. -/
def Tree.Decode (t : Tree) (o : Object) : Tree × Option GoErr :=
  if o.type ≠ .tree then (t, some .errUnsupportedObject)
  else
    let t1 : Tree := { t with Hash := o.hash }
    if o.content.length = 0 then (t1, none)
    else
      let t2 : Tree := { t1 with Entries := [], m := none }
      let (es, e) := decodeEntries o.content []
      ({ t2 with Entries := es }, e)

/-! ## Tree.Encode -/

/-- `%o` of a positive `Nat`: most significant octal digit first.
The first argument is fuel; since dividing by 8 strictly shrinks a
positive number, fuel equal to the number itself is always enough. -/
def toOctalDigitsGo : Nat → Nat → List Nat
  | 0, _ => []
  | _ + 1, 0 => []
  | fuel + 1, n => toOctalDigitsGo fuel (n / 8) ++ [48 + n % 8]

/-- `fmt.Fprintf("%o", mode)` byte string ("0" for zero). -/
def toOctal (n : Nat) : List Nat :=
  if n = 0 then [48] else toOctalDigitsGo n n

/-- One record written by src tree.go `Tree.Encode`:
`<octal mode> <space> <name> <NUL> <raw hash bytes>`. -/
def encodeEntry (e : TreeEntry) : List Nat :=
  toOctal e.Mode ++ [32] ++ e.Name ++ [0] ++ e.Hash

/-- src tree.go `Tree.Encode`, body bytes: each entry's record in
list order (the object's declared size is the total length). -/
def Tree.EncodeBytes (t : Tree) : List Nat :=
  (t.Entries.map encodeEntry).flatten

/-- src tree.go `Tree.Encode`: sets the object type to tree, writes
the records, and records the accumulated byte count as the size. -/
def Tree.Encode (t : Tree) (o : Object) : Object :=
  { o with type := .tree, content := t.EncodeBytes }

/-! ## The lazily built name→entry index -/

/-- src tree.go `Tree.buildMap`: insert every entry into the map in
index order, so a later entry with the same name overwrites an
earlier one. -/
def buildMap (es : List TreeEntry) : List Nat → Option TreeEntry :=
  es.foldl (fun m e => fun n => if n = e.Name then some e else m n)
    (fun _ => none)

/-- src tree.go `Tree.entry`: build the index on first use, store it
on the receiver, and look the name up; a missing name is
`errEntryNotFound`.  The updated receiver is returned next to the
result (the Go method mutates `t.m` in place). -/
def Tree.entry (t : Tree) (name : List Nat) :
    Except GoErr TreeEntry × Tree :=
  let mp := match t.m with
    | none => buildMap t.Entries
    | some mp => mp
  let t1 : Tree := { t with m := some mp }
  match mp name with
  | none => (.error .errEntryNotFound, t1)
  | some e => (.ok e, t1)

/-! ## Path resolver -/

/-- `strings.Split` on a one-byte separator: the list of separated
chunks; the empty input yields one empty chunk, as in Go. -/
def splitOnByte (sep : Nat) : List Nat → List (List Nat)
  | [] => [[]]
  | b :: bs =>
    if b = sep then [] :: splitOnByte sep bs
    else
      match splitOnByte sep bs with
      | [] => [[b]]
      | c :: cs => (b :: c) :: cs

/-- src tree.go `Tree.dir`: look the segment up in the receiver's
index (a miss is `errDirNotFound`), fetch the object by the entry's
hash (`core.ErrObjectNotFound` — a git submodule — is collapsed to
`errDirNotFound`), require the object kind to be tree (anything else
is `errDirNotFound`), and decode it into a fresh tree.  The decode
error is discarded by the Go code, so a partially decoded subtree is
returned as a success.  The second component is the updated receiver
(its index may have just been built). -/
def Tree.dir (s : Storage) (t : Tree) (baseName : List Nat) :
    Except GoErr Tree × Tree :=
  match t.entry baseName with
  | (.error _, t1) => (.error .errDirNotFound, t1)
  | (.ok e, t1) =>
    match s e.Hash with
    | none => (.error .errDirNotFound, t1)
    | some o =>
      if o.type ≠ .tree then (.error .errDirNotFound, t1)
      else (.ok (Tree.Decode freshTree o).1, t1)

/-- The loop of src tree.go `Tree.findEntry` over the split path:
every segment except the last descends through `dir`; the last
segment is looked up in the index of the tree reached.  The second
component is the updated root receiver (intermediate trees are local
to the loop, as in Go). -/
def Tree.findEntryAux (s : Storage) (t : Tree) :
    List (List Nat) → Except GoErr TreeEntry × Tree
  | [] => (.error .errEntryNotFound, t)
  | [p] => t.entry p
  | p :: ps =>
    match t.dir s p with
    | (.error e, t1) => (.error e, t1)
    | (.ok sub, t1) => ((Tree.findEntryAux s sub ps).1, t1)

/-- src tree.go `Tree.findEntry`: split the path on `/` and resolve
(the `[]` branch of the loop is unreachable, `strings.Split` never
returns an empty list). -/
def Tree.findEntry (s : Storage) (t : Tree) (path : List Nat) :
    Except GoErr TreeEntry × Tree :=
  Tree.findEntryAux s t (splitOnByte 47 path)

/-- File represents a git file object: resolved name, mode, and the
blob content.  The embedded Blob is modelled from the spec as the
object's opaque byte content (`blob.go` is not under src/; the spec
defines a Blob as "opaque byte content reachable via a readable
stream"). -/
structure File where
  Name : List Nat
  Mode : Nat
  content : List Nat
  deriving DecidableEq, Repr

/-- src file.go `newFile`. -/
def newFile (name : List Nat) (m : Nat) (b : List Nat) : File :=
  ⟨name, m, b⟩

/-- src file.go `File.Contents`: the blob's bytes (the reader cannot
fail in the storage model). -/
def File.Contents (f : File) : List Nat := f.content

/-- src tree.go `Tree.File`: resolve the path to a leaf entry (any
resolver failure is collapsed to `ErrFileNotFound`), fetch the
backing object (`core.ErrObjectNotFound` — a git submodule — is
collapsed to `ErrFileNotFound`), refuse any non-blob kind as
`ErrFileNotFound`, and otherwise join the `path` argument and the
entry's mode with the decoded blob.  The second component is the
updated receiver. -/
def Tree.File (s : Storage) (t : Tree) (path : List Nat) :
    Except GoErr File × Tree :=
  match t.findEntry s path with
  | (.error _, t1) => (.error .errFileNotFound, t1)
  | (.ok e, t1) =>
    match s e.Hash with
    | none => (.error .errFileNotFound, t1)
    | some o =>
      if o.type ≠ .blob then (.error .errFileNotFound, t1)
      else (.ok (newFile path e.Mode o.content), t1)

/-- src file.go `File.Lines`: split the contents on `"\n"` and drop
the final chunk when it is empty. -/
def File.Lines (f : File) : List (List Nat) :=
  let splits := splitOnByte 10 f.Contents
  if splits.getLast? = some [] then splits.dropLast else splits

/-! ## Tree walker

Modelled from the spec: the `TreeWalker` type and its `Next`/`Close`
are not under src/ (src has only `maxTreeDepth` and
`ErrMaxTreeDepth`); §4.4 of the spec defines the pre-order, stack-
based traversal and the depth guard checked against the prospective
depth before a frame is pushed. -/

/-- The concrete object a walker yield carries, as seen by the
filtered iterators' type switches (`*Tree` / `*Blob`); other kinds
are neither. -/
inductive GitObject where
  | tree (t : Tree)
  | blob (content : List Nat)
  | other (k : ObjectType)

/-- Decoding a fetched object for the walker: trees through
`Tree.Decode` on a fresh receiver (its error discarded as in
`Tree.dir`), blobs as their bytes. -/
def toGitObject (o : Object) : GitObject :=
  match o.type with
  | .tree => .tree (Tree.Decode freshTree o).1
  | .blob => .blob o.content
  | k => .other k

/-- Modelled from the spec: one stack frame of the walker — the tree
it traverses, the cursor position in its entry list, and the path
under which its entries are reported. -/
structure Frame where
  base : List Nat
  t : Tree
  pos : Nat

/-- Joining a parent path with an entry name using `/`. -/
def pathJoin (base name : List Nat) : List Nat :=
  if base.isEmpty then name else base ++ 47 :: name

/-- Modelled from the spec: `TreeWalker.Next`.  An exhausted top
frame is popped and the step retried; an empty stack is end of
sequence (`io.EOF`); otherwise the top frame's next entry is taken,
its object resolved from storage and yielded, and when that object
is itself a tree a frame for it is pushed — unless the prospective
depth would exceed `maxTreeDepth`, which fails the call with
`ErrMaxTreeDepth` instead. -/
def walkerNext (s : Storage) :
    List Frame → Except GoErr (List Nat × TreeEntry × GitObject) × List Frame
  | [] => (.error .eof, [])
  | f :: rest =>
    if h : f.pos < f.t.Entries.length then
      let e := f.t.Entries.get ⟨f.pos, h⟩
      let full := pathJoin f.base e.Name
      match s e.Hash with
      | none => (.error .errObjectNotFound, f :: rest)
      | some o =>
        let f' : Frame := { f with pos := f.pos + 1 }
        match toGitObject o with
        | .tree sub =>
          if rest.length + 2 > maxTreeDepth then
            (.error .errMaxTreeDepth, f' :: rest)
          else
            (.ok (full, e, .tree sub), ⟨full, sub, 0⟩ :: f' :: rest)
        | g => (.ok (full, e, g), f' :: rest)
    else
      walkerNext s rest

/-- Modelled from the spec: the walker is created bound to one
storage handle and one root tree, starting from a single frame for
the root. -/
structure TreeWalker where
  s : Storage
  t : Tree
  stack : List Frame

/-- `NewTreeWalker(r, t)`. -/
def NewTreeWalker (s : Storage) (t : Tree) : TreeWalker :=
  ⟨s, t, [⟨[], t, 0⟩]⟩

/-- `TreeWalker.Next` as a state–passing step on the walker. -/
def TreeWalker.Next (w : TreeWalker) :
    Except GoErr (List Nat × TreeEntry × GitObject) × TreeWalker :=
  let (r, st) := walkerNext w.s w.stack
  (r, { w with stack := st })

/-! ## Filtered iterators -/

/-- src file.go `FileIter`: a thin wrapper around a walker. -/
structure FileIter where
  w : TreeWalker

/-- src file.go `NewFileIter`. -/
def NewFileIter (s : Storage) (t : Tree) : FileIter :=
  ⟨NewTreeWalker s t⟩

/-- src file.go `FileIter.Next`: advance the walker until it yields a
blob, and join that entry's full path and mode with the blob into a
File; walker errors propagate.  The skip loop needs fuel because the
storage graph of the model need not be finite; `none` means the fuel
ran out, never a behaviour of the code. -/
def FileIter.NextN : Nat → FileIter → Option (Except GoErr File × FileIter)
  | 0, _ => none
  | fuel + 1, it =>
    let (r, w') := it.w.Next
    match r with
    | .error e => some (.error e, ⟨w'⟩)
    | .ok (name, e, .blob c) => some (.ok (newFile name e.Mode c), ⟨w'⟩)
    | .ok _ => FileIter.NextN fuel ⟨w'⟩

/-- src tree.go `TreeIter`: a thin wrapper around a walker. -/
structure TreeIter where
  w : TreeWalker

/-- src tree.go `NewTreeIter`. -/
def NewTreeIter (s : Storage) (t : Tree) : TreeIter :=
  ⟨NewTreeWalker s t⟩

/-- src tree.go `TreeIter.Next`: advance the walker until it yields a
tree (fuelled like `FileIter.NextN`). -/
def TreeIter.NextN : Nat → TreeIter → Option (Except GoErr Tree × TreeIter)
  | 0, _ => none
  | fuel + 1, it =>
    let (r, w') := it.w.Next
    match r with
    | .error e => some (.error e, ⟨w'⟩)
    | .ok (_, _, .tree t) => some (.ok t, ⟨w'⟩)
    | .ok _ => TreeIter.NextN fuel ⟨w'⟩

deriving instance DecidableEq for Except

/-- The observable outcome of a `ForEach` run: its return value, the
items handed to the callback in order, and how many times the
iterator's walker was closed on the way out (the single deferred
`Close()` runs exactly once at every return). -/
structure ForEachOut (α : Type) where
  result : Except GoErr Unit
  delivered : List α
  closes : Nat
  deriving DecidableEq, Repr

/-- The loop of src file.go `FileIter.ForEach`: pull the next file
(`io.EOF` returns nil, other errors propagate), hand it to the
callback (`core.ErrStop` returns nil, any other callback error
propagates unchanged), else continue.  Every exit path carries the
one deferred close. -/
def fileForEachLoop (cb : File → Option GoErr) :
    Nat → FileIter → Option (ForEachOut File)
  | 0, _ => none
  | fuel + 1, it =>
    match FileIter.NextN (fuel + 1) it with
    | none => none
    | some (.error e, _) =>
      if e = .eof then some ⟨.ok (), [], 1⟩ else some ⟨.error e, [], 1⟩
    | some (.ok f, it') =>
      match cb f with
      | some e =>
        if e = .errStop then some ⟨.ok (), [f], 1⟩
        else some ⟨.error e, [f], 1⟩
      | none =>
        match fileForEachLoop cb fuel it' with
        | none => none
        | some out => some ⟨out.result, f :: out.delivered, out.closes⟩

/-- src file.go `FileIter.ForEach`: build a fresh private iterator
over a new walker bound to the receiver's repository and root tree
(`i := &FileIter{w: *NewTreeWalker(iter.w.r, iter.w.t)}`), drive the
loop on it, and close that private iterator on every exit. -/
def FileIter.ForEach (it : FileIter) (cb : File → Option GoErr)
    (fuel : Nat) : Option (ForEachOut File) :=
  fileForEachLoop cb fuel ⟨NewTreeWalker it.w.s it.w.t⟩

/-- The item stream a fresh private iterator of `FileIter.ForEach`
produces: the files yielded in encounter order and the terminating
error (`eof` or a walker failure), fuelled like the loop. -/
def fileStream : Nat → FileIter → Option (List File × GoErr)
  | 0, _ => none
  | fuel + 1, it =>
    match FileIter.NextN (fuel + 1) it with
    | none => none
    | some (.error e, _) => some ([], e)
    | some (.ok f, it') =>
      match fileStream fuel it' with
      | none => none
      | some (fs, e) => some (f :: fs, e)

/-- The loop of src tree.go `TreeIter.ForEach`, driving the
receiver's own walker (`defer iter.Close()`, then `iter.Next()` in a
loop) with the same stop/error protocol as the file iterator. -/
def treeForEachLoop (cb : Tree → Option GoErr) :
    Nat → TreeIter → Option (ForEachOut Tree)
  | 0, _ => none
  | fuel + 1, it =>
    match TreeIter.NextN (fuel + 1) it with
    | none => none
    | some (.error e, _) =>
      if e = .eof then some ⟨.ok (), [], 1⟩ else some ⟨.error e, [], 1⟩
    | some (.ok t, it') =>
      match cb t with
      | some e =>
        if e = .errStop then some ⟨.ok (), [t], 1⟩
        else some ⟨.error e, [t], 1⟩
      | none =>
        match treeForEachLoop cb fuel it' with
        | none => none
        | some out => some ⟨out.result, t :: out.delivered, out.closes⟩

/-- src tree.go `TreeIter.ForEach`. -/
def TreeIter.ForEach (it : TreeIter) (cb : Tree → Option GoErr)
    (fuel : Nat) : Option (ForEachOut Tree) :=
  treeForEachLoop cb fuel it

/-- The item stream of a `TreeIter`, from its current walker state. -/
def treeStream : Nat → TreeIter → Option (List Tree × GoErr)
  | 0, _ => none
  | fuel + 1, it =>
    match TreeIter.NextN (fuel + 1) it with
    | none => none
    | some (.error e, _) => some ([], e)
    | some (.ok t, it') =>
      match treeStream fuel it' with
      | none => none
      | some (ts, e) => some (t :: ts, e)

/-- Driving the bare walker to its end: `some (.ok n)` when it
reaches end of sequence after yielding `n` items, `some (.error e)`
when a call fails, `none` when the fuel runs out before either. -/
def walkRun (s : Storage) : Nat → List Frame → Nat → Option (Except GoErr Nat)
  | 0, _, _ => none
  | fuel + 1, st, cnt =>
    match walkerNext s st with
    | (.error .eof, _) => some (.ok cnt)
    | (.error e, _) => some (.error e)
    | (.ok _, st') => walkRun s fuel st' (cnt + 1)

/-! ## Concrete instances

Small concrete trees, objects and storages used to evaluate the
definitions at specific inputs. -/

/-- The encoded bytes of a single-entry directory record:
`"40000 d\x00"` followed by a 20-byte hash of ones. -/
def dirRecordBytes : List Nat :=
  [52, 48, 48, 48, 48, 32, 100, 0] ++ List.replicate 20 1

/-- A 20-byte hash whose first two bytes encode `i`. -/
def chainHash (i : Nat) : List Nat :=
  i / 256 :: i % 256 :: List.replicate 18 0

/-- The body of the `i`-th chain directory: one record
`"40000 d\x00"` pointing at `chainHash (i+1)`. -/
def chainContent (i : Nat) : List Nat :=
  [52, 48, 48, 48, 48, 32, 100, 0] ++ chainHash (i + 1)

/-- A storage holding a chain of `n` nested single-entry directories:
tree objects at `chainHash 2 .. chainHash n` (the root, number 1, is
held by the caller) and a blob at `chainHash (n+1)`, the single entry
of the innermost directory. -/
def chainStorage (n : Nat) : Storage := fun h =>
  match h with
  | a :: b :: rest =>
    let i := a * 256 + b
    if b < 256 ∧ rest = List.replicate 18 0 ∧ 2 ≤ i ∧ i ≤ n + 1 then
      some (if i = n + 1 then ⟨.blob, chainHash i, [99]⟩
            else ⟨.tree, chainHash i, chainContent i⟩)
    else none
  | _ => none

/-- The root of the chain: directory number 1, decoded from its own
encoded object. -/
def chainRoot : Tree :=
  (Tree.Decode freshTree ⟨.tree, chainHash 1, chainContent 1⟩).1

/-- A blob hash, a directory hash and a commit hash for the small
path-resolution scenarios. -/
def hBlob : List Nat := List.replicate 20 2

def hDir : List Nat := List.replicate 20 3

def hCommit : List Nat := List.replicate 20 4

/-- A storage with a commit object at `hCommit`, a directory at
`hDir` whose single entry is a regular file `"f"` backed by the blob
at `hBlob`. -/
def scenarioStorage : Storage := fun h =>
  if h = hBlob then some ⟨.blob, hBlob, [104, 105]⟩
  else if h = hDir then
    some ⟨.tree, hDir, [49, 48, 48, 54, 52, 52, 32, 102, 0] ++ hBlob⟩
  else if h = hCommit then some ⟨.commit, hCommit, []⟩
  else none

/-- A root tree with a submodule-style entry `"x"` whose backing
object is the commit, and a directory entry `"d"` backed by the tree
at `hDir`. -/
def scenarioRoot : Tree :=
  ⟨[⟨[120], 0o160000, hCommit⟩, ⟨[100], 0o40000 + modeDirBit, hDir⟩],
   List.replicate 20 5, none⟩

/-- A root for the iterator scenarios: a blob `"a.txt"`, a directory
`"b"` (the tree at `hDir`, holding `"f"`), and a blob `"d.txt"`. -/
def iterRoot : Tree :=
  ⟨[⟨[97, 46, 116, 120, 116], 0o100644, hBlob⟩,
    ⟨[98], 0o40000 + modeDirBit, hDir⟩,
    ⟨[100, 46, 116, 120, 116], 0o100644, hBlob⟩],
   List.replicate 20 6, none⟩

/-- A callback that always continues. -/
def cbContinue : File → Option GoErr := fun _ => none

/-- A tree callback that always continues. -/
def cbTreeContinue : Tree → Option GoErr := fun _ => none

/-! ## General lemmas about the model -/

theorem breakByte_rest_lt {d : Nat} : ∀ {bs xs r : List Nat},
    breakByte d bs = some (xs, r) → r.length < bs.length := by
  intro bs
  induction bs with
  | nil => intro xs r h; simp [breakByte] at h
  | cons b bs ih =>
    intro xs r h
    by_cases hb : b = d
    · simp [breakByte, hb] at h
      simp [← h.2]
    · simp only [breakByte, if_neg hb] at h
      cases hbr : breakByte d bs with
      | none => rw [hbr] at h; simp at h
      | some p =>
        obtain ⟨xs', r'⟩ := p
        rw [hbr] at h
        simp at h
        have := ih hbr
        rw [← h.2]
        simp
        omega

theorem readStr_rest_le {d : Nat} {bs : List Nat} :
    (readStr d bs).2.length ≤ bs.length := by
  unfold readStr
  cases hbr : breakByte d bs with
  | none => simp
  | some p =>
    obtain ⟨xs', r'⟩ := p
    have := breakByte_rest_lt hbr
    simp
    omega

theorem readFull_rest_le {n : Nat} {bs h r : List Nat}
    (hr : readFull n bs = .ok (h, r)) : r.length ≤ bs.length := by
  unfold readFull at hr
  by_cases hl : bs.length < n
  · simp [hl] at hr
  · simp [hl] at hr
    rw [← hr.2]
    simp

/-- The fuel of `decodeEntriesGo` is an artifact of the embedding:
any fuel beyond the input length gives the same result, so
`decodeEntries` computes the limit of the Go loop. -/
theorem decodeEntriesGo_fuel : ∀ (fuel₁ fuel₂ : Nat) (bs : List Nat)
    (acc : List TreeEntry), bs.length < fuel₁ → bs.length < fuel₂ →
    decodeEntriesGo fuel₁ bs acc = decodeEntriesGo fuel₂ bs acc := by
  intro fuel₁
  induction fuel₁ using Nat.strong_induction_on with
  | _ fuel₁ ih =>
    intro fuel₂ bs acc h₁ h₂
    match fuel₁, h₁ with
    | f₁ + 1, h₁ =>
      match fuel₂, h₂ with
      | f₂ + 1, h₂ =>
        cases hbr : breakByte 32 bs with
        | none => simp only [decodeEntriesGo, hbr]
        | some p =>
          obtain ⟨modeSp, rest1⟩ := p
          cases hdm : decodeFileMode modeSp.dropLast with
          | error e => simp only [decodeEntriesGo, hbr, hdm]
          | ok fm =>
            by_cases hemp : (readStr 0 rest1).1.isEmpty
            · simp [decodeEntriesGo, hbr, hdm, hemp]
            · cases hrf : readFull 20 (readStr 0 rest1).2 with
              | error e => simp [decodeEntriesGo, hbr, hdm, hemp, hrf]
              | ok pr =>
                obtain ⟨hsh, rest3⟩ := pr
                simp only [decodeEntriesGo, hbr, hdm, hemp, hrf,
                  Bool.false_eq_true, if_false]
                have hlt : rest1.length < bs.length := breakByte_rest_lt hbr
                have hle : (readStr 0 rest1).2.length ≤ rest1.length :=
                  readStr_rest_le
                have hle3 : rest3.length ≤ (readStr 0 rest1).2.length :=
                  readFull_rest_le hrf
                exact ih f₁ (by omega) f₂ rest3 _ (by omega) (by omega)

theorem splitOnByte_ne_nil {sep : Nat} : ∀ (bs : List Nat),
    splitOnByte sep bs ≠ [] := by
  intro bs
  cases bs with
  | nil => simp [splitOnByte]
  | cons b bs =>
    by_cases hb : b = sep
    · simp [splitOnByte, hb]
    · simp only [splitOnByte, if_neg hb]
      cases splitOnByte sep bs with
      | nil => simp
      | cons c cs => simp

/-- A successful signed 32-bit octal parse is in the signed 32-bit
range. -/
theorem goParseOctInt32_range {s : List Nat} {i : Int}
    (h : goParseOctInt32 s = .ok i) :
    -(2 ^ 31 : Int) ≤ i ∧ i ≤ 2 ^ 31 ∧ (0 ≤ i → i < 2 ^ 31) := by
  unfold goParseOctInt32 at h
  by_cases hemp : (stripSign s).2.isEmpty
  · simp [hemp] at h
  · simp only [hemp, Bool.false_eq_true, if_false] at h
    cases hpl : parseOctLoop (stripSign s).2 0 with
    | error e => rw [hpl] at h; simp at h
    | ok v =>
      rw [hpl] at h
      simp only at h
      have h31n : (2 ^ 31 : Nat) = 2147483648 := by norm_num
      have h31 : (2 ^ 31 : Int) = 2147483648 := by norm_num
      rw [h31]
      cases hneg : (stripSign s).1 with
      | false =>
        rw [hneg] at h
        simp only [eq_self_iff_true, true_and, Bool.false_eq_true,
          false_and, if_false, h31n] at h
        by_cases hv : (2147483648 : Nat) ≤ v
        · rw [if_pos hv] at h
          simp at h
        · rw [if_neg hv] at h
          simp only [Except.ok.injEq] at h
          subst h
          refine ⟨by omega, by omega, fun _ => by omega⟩
      | true =>
        rw [hneg] at h
        simp only [Bool.true_eq_false, false_and, if_false,
          eq_self_iff_true, true_and, if_true, h31n] at h
        by_cases hv : (2147483648 : Nat) < v
        · rw [if_pos hv] at h
          simp at h
        · rw [if_neg hv] at h
          simp only [Except.ok.injEq] at h
          subst h
          refine ⟨by omega, by omega, fun h0 => by omega⟩

/-- The insertion fold of `buildMap`, with an arbitrary starting map:
a name resolves to the last matching entry of the list, falling back
to the starting map when no entry matches. -/
theorem buildMap_foldl (n : List Nat) : ∀ (es : List TreeEntry)
    (m0 : List Nat → Option TreeEntry),
    (es.foldl (fun m e => fun x => if x = e.Name then some e else m x) m0) n =
      (match (es.filter (fun e => e.Name = n)).getLast? with
       | some e => some e
       | none => m0 n) := by
  intro es
  induction es with
  | nil => intro m0; simp
  | cons e es ih =>
    intro m0
    rw [List.foldl_cons, ih, List.filter_cons]
    by_cases hn : e.Name = n
    · cases hfl : es.filter (fun e => decide (e.Name = n)) with
      | nil => simp [hn]
      | cons c cs =>
        simp [hn, List.getLast?_eq_getLast (c :: cs) (by simp)]
    · have hn' : ¬(n = e.Name) := fun hc => hn hc.symm
      simp [hn, hn']

theorem splitOnByte_single_nil {sep : Nat} : ∀ {bs : List Nat},
    splitOnByte sep bs = [[]] → bs = [] := by
  intro bs h
  cases bs with
  | nil => rfl
  | cons b bs =>
    by_cases hb : b = sep
    · simp only [splitOnByte, if_pos hb] at h
      simp at h
      exact absurd h (splitOnByte_ne_nil bs)
    · simp only [splitOnByte, if_neg hb] at h
      cases hsp : splitOnByte sep bs with
      | nil => rw [hsp] at h; simp at h
      | cons c cs => rw [hsp] at h; simp at h

/-- The final chunk of a byte-wise split is empty exactly when the
input is empty or ends in the separator. -/
theorem splitOnByte_getLast?_nil {sep : Nat} : ∀ (bs : List Nat),
    ((splitOnByte sep bs).getLast? = some []) ↔
      (bs = [] ∨ bs.getLast? = some sep) := by
  intro bs
  induction bs with
  | nil => simp [splitOnByte]
  | cons b bs ih =>
    by_cases hb : b = sep
    · simp only [splitOnByte, if_pos hb]
      rcases eq_or_ne bs [] with hbs | hbs
      · subst hbs
        simp [splitOnByte, hb]
      · cases hsp : splitOnByte sep bs with
        | nil => exact absurd hsp (splitOnByte_ne_nil bs)
        | cons c cs =>
          rw [hsp] at ih
          rw [List.getLast?_cons_cons, ih]
          obtain ⟨b', bs', rfl⟩ := List.exists_cons_of_ne_nil hbs
          simp [List.getLast?_cons_cons]
    · simp only [splitOnByte, if_neg hb]
      cases hsp : splitOnByte sep bs with
      | nil => exact absurd hsp (splitOnByte_ne_nil bs)
      | cons c cs =>
        rw [hsp] at ih
        cases cs with
        | nil =>
          simp only [List.getLast?_singleton]
          constructor
          · intro h; simp at h
          · intro h
            rcases h with h | h
            · simp at h
            · rcases eq_or_ne bs [] with hbs | hbs
              · subst hbs
                simp at h
                exact absurd h hb
              · obtain ⟨b', bs', rfl⟩ := List.exists_cons_of_ne_nil hbs
                rw [List.getLast?_cons_cons] at h
                have hc := ih.mpr (Or.inr h)
                simp only [List.getLast?_singleton, Option.some.injEq] at hc
                have := splitOnByte_single_nil
                  (show splitOnByte sep (b' :: bs') = [[]] by rw [hsp, hc])
                simp at this
        | cons c' cs' =>
          rw [List.getLast?_cons_cons]
          rw [List.getLast?_cons_cons] at ih
          rw [ih]
          have hbs : bs ≠ [] := by
            intro hnil
            rw [hnil] at hsp
            simp [splitOnByte] at hsp
          obtain ⟨b', bs', rfl⟩ := List.exists_cons_of_ne_nil hbs
          simp [List.getLast?_cons_cons]

/-- When the callback always continues, the `ForEach` loop delivers
every produced file in encounter order, returns nil on `io.EOF` and
the walker's error otherwise, and closes once. -/
theorem fileForEachLoop_continue : ∀ (fuel : Nat) (it : FileIter)
    (cb : File → Option GoErr) (fs : List File) (e : GoErr),
    fileStream fuel it = some (fs, e) → (∀ f ∈ fs, cb f = none) →
    fileForEachLoop cb fuel it =
      some ⟨if e = .eof then .ok () else .error e, fs, 1⟩ := by
  intro fuel
  induction fuel with
  | zero => intro it cb fs e hs _; simp [fileStream] at hs
  | succ fuel ih =>
    intro it cb fs e hs hcb
    simp only [fileStream] at hs
    simp only [fileForEachLoop]
    cases hnx : FileIter.NextN (fuel + 1) it with
    | none => rw [hnx] at hs; simp at hs
    | some p =>
      obtain ⟨r, it'⟩ := p
      rw [hnx] at hs
      cases r with
      | error e' =>
        simp only [Option.some.injEq, Prod.mk.injEq] at hs
        obtain ⟨hfs, he⟩ := hs
        subst hfs; subst he
        by_cases he' : e' = GoErr.eof <;> simp [he']
      | ok f =>
        simp only at hs
        cases hs' : fileStream fuel ⟨it'.w⟩ with
        | none =>
          rw [show (⟨it'.w⟩ : FileIter) = it' from rfl] at hs'
          rw [hs'] at hs; simp at hs
        | some q =>
          obtain ⟨fs', e'⟩ := q
          rw [show (⟨it'.w⟩ : FileIter) = it' from rfl] at hs'
          rw [hs'] at hs
          simp only [Option.some.injEq, Prod.mk.injEq] at hs
          obtain ⟨hfs, he⟩ := hs
          subst he
          have hcbf : cb f = none := by
            apply hcb; rw [← hfs]; exact List.mem_cons_self f fs'
          have hrec := ih it' cb fs' e' hs' (by
            intro g hg; apply hcb; rw [← hfs]; exact List.mem_cons_of_mem f hg)
          simp only [hcbf, hrec]
          rw [← hfs]

/-- When the callback first signals at some produced file `f`, the
`ForEach` loop delivers exactly the files up to and including `f`,
returns nil when the signal was the stop sentinel and the very error
otherwise, and closes once. -/
theorem fileForEachLoop_signal : ∀ (fuel : Nat) (it : FileIter)
    (cb : File → Option GoErr) (fs1 : List File) (f : File)
    (fs2 : List File) (e : GoErr) (ec : GoErr),
    fileStream fuel it = some (fs1 ++ f :: fs2, e) →
    (∀ g ∈ fs1, cb g = none) → cb f = some ec →
    fileForEachLoop cb fuel it =
      some ⟨if ec = .errStop then .ok () else .error ec, fs1 ++ [f], 1⟩ := by
  intro fuel
  induction fuel with
  | zero => intro it cb fs1 f fs2 e ec hs _ _; simp [fileStream] at hs
  | succ fuel ih =>
    intro it cb fs1 f fs2 e ec hs hcb hcf
    simp only [fileStream] at hs
    simp only [fileForEachLoop]
    cases hnx : FileIter.NextN (fuel + 1) it with
    | none => rw [hnx] at hs; simp at hs
    | some p =>
      obtain ⟨r, it'⟩ := p
      rw [hnx] at hs
      cases r with
      | error e' =>
        simp only [Option.some.injEq, Prod.mk.injEq] at hs
        have := hs.1
        simp at this
      | ok g =>
        simp only at hs
        cases hs' : fileStream fuel ⟨it'.w⟩ with
        | none =>
          rw [show (⟨it'.w⟩ : FileIter) = it' from rfl] at hs'
          rw [hs'] at hs; simp at hs
        | some q =>
          obtain ⟨tl, e'⟩ := q
          rw [show (⟨it'.w⟩ : FileIter) = it' from rfl] at hs'
          rw [hs'] at hs
          simp only [Option.some.injEq, Prod.mk.injEq] at hs
          obtain ⟨htl, he⟩ := hs
          cases fs1 with
          | nil =>
            simp only [List.nil_append] at htl
            obtain ⟨hgf, -⟩ := List.cons.inj htl
            subst hgf
            simp only [hcf]
            by_cases hec : ec = GoErr.errStop <;> simp [hec]
          | cons g1 fs1' =>
            simp only [List.cons_append] at htl
            obtain ⟨hgg, htl'⟩ := List.cons.inj htl
            subst hgg
            have hcbg : cb g = none := hcb g (List.mem_cons_self g fs1')
            have hrec := ih it' cb fs1' f fs2 e' ec
              (by rw [hs', htl'])
              (fun x hx => hcb x (List.mem_cons_of_mem g hx)) hcf
            simp only [hcbg, hrec]
            simp

/-- `fileForEachLoop_continue` for the tree iterator. -/
theorem treeForEachLoop_continue : ∀ (fuel : Nat) (it : TreeIter)
    (cb : Tree → Option GoErr) (ts : List Tree) (e : GoErr),
    treeStream fuel it = some (ts, e) → (∀ t ∈ ts, cb t = none) →
    treeForEachLoop cb fuel it =
      some ⟨if e = .eof then .ok () else .error e, ts, 1⟩ := by
  intro fuel
  induction fuel with
  | zero => intro it cb ts e hs _; simp [treeStream] at hs
  | succ fuel ih =>
    intro it cb ts e hs hcb
    simp only [treeStream] at hs
    simp only [treeForEachLoop]
    cases hnx : TreeIter.NextN (fuel + 1) it with
    | none => rw [hnx] at hs; simp at hs
    | some p =>
      obtain ⟨r, it'⟩ := p
      rw [hnx] at hs
      cases r with
      | error e' =>
        simp only [Option.some.injEq, Prod.mk.injEq] at hs
        obtain ⟨hts, he⟩ := hs
        subst hts; subst he
        by_cases he' : e' = GoErr.eof <;> simp [he']
      | ok t =>
        simp only at hs
        cases hs' : treeStream fuel ⟨it'.w⟩ with
        | none =>
          rw [show (⟨it'.w⟩ : TreeIter) = it' from rfl] at hs'
          rw [hs'] at hs; simp at hs
        | some q =>
          obtain ⟨ts', e'⟩ := q
          rw [show (⟨it'.w⟩ : TreeIter) = it' from rfl] at hs'
          rw [hs'] at hs
          simp only [Option.some.injEq, Prod.mk.injEq] at hs
          obtain ⟨hts, he⟩ := hs
          subst he
          have hcbt : cb t = none := by
            apply hcb; rw [← hts]; exact List.mem_cons_self t ts'
          have hrec := ih it' cb ts' e' hs' (by
            intro g hg; apply hcb; rw [← hts]; exact List.mem_cons_of_mem t hg)
          simp only [hcbt, hrec]
          rw [← hts]

/-- `fileForEachLoop_signal` for the tree iterator. -/
theorem treeForEachLoop_signal : ∀ (fuel : Nat) (it : TreeIter)
    (cb : Tree → Option GoErr) (ts1 : List Tree) (t : Tree)
    (ts2 : List Tree) (e : GoErr) (ec : GoErr),
    treeStream fuel it = some (ts1 ++ t :: ts2, e) →
    (∀ g ∈ ts1, cb g = none) → cb t = some ec →
    treeForEachLoop cb fuel it =
      some ⟨if ec = .errStop then .ok () else .error ec, ts1 ++ [t], 1⟩ := by
  intro fuel
  induction fuel with
  | zero => intro it cb ts1 t ts2 e ec hs _ _; simp [treeStream] at hs
  | succ fuel ih =>
    intro it cb ts1 t ts2 e ec hs hcb hct
    simp only [treeStream] at hs
    simp only [treeForEachLoop]
    cases hnx : TreeIter.NextN (fuel + 1) it with
    | none => rw [hnx] at hs; simp at hs
    | some p =>
      obtain ⟨r, it'⟩ := p
      rw [hnx] at hs
      cases r with
      | error e' =>
        simp only [Option.some.injEq, Prod.mk.injEq] at hs
        have := hs.1
        simp at this
      | ok g =>
        simp only at hs
        cases hs' : treeStream fuel ⟨it'.w⟩ with
        | none =>
          rw [show (⟨it'.w⟩ : TreeIter) = it' from rfl] at hs'
          rw [hs'] at hs; simp at hs
        | some q =>
          obtain ⟨tl, e'⟩ := q
          rw [show (⟨it'.w⟩ : TreeIter) = it' from rfl] at hs'
          rw [hs'] at hs
          simp only [Option.some.injEq, Prod.mk.injEq] at hs
          obtain ⟨htl, he⟩ := hs
          cases ts1 with
          | nil =>
            simp only [List.nil_append] at htl
            obtain ⟨hgf, -⟩ := List.cons.inj htl
            subst hgf
            simp only [hct]
            by_cases hec : ec = GoErr.errStop <;> simp [hec]
          | cons g1 ts1' =>
            simp only [List.cons_append] at htl
            obtain ⟨hgg, htl'⟩ := List.cons.inj htl
            subst hgg
            have hcbg : cb g = none := hcb g (List.mem_cons_self g ts1')
            have hrec := ih it' cb ts1' t ts2 e' ec
              (by rw [hs', htl'])
              (fun x hx => hcb x (List.mem_cons_of_mem g hx)) hct
            simp only [hcbg, hrec]
            simp

/-! ## Claim theorems -/

/-- C8: decoding a tree object whose body has zero length succeeds
and yields an empty, valid Tree (no entries, no index); decoding an
object whose kind is not tree fails with the unsupported-object
error, with the receiver untouched — the kind test precedes any read,
so no input is consumed. -/
theorem decode_empty_body_and_wrong_kind :
    (∀ h : List Nat,
      Tree.Decode freshTree ⟨.tree, h, []⟩ = (⟨[], h, none⟩, none)) ∧
    (∀ (t : Tree) (o : Object), o.type ≠ .tree →
      Tree.Decode t o = (t, some .errUnsupportedObject)) := by
  constructor
  · intro h
    simp [Tree.Decode, freshTree]
  · intro t o ho
    simp [Tree.Decode, ho]

/-- Witness for C8 at a 20-byte hash of sevens and a blob object. -/
theorem decode_empty_body_and_wrong_kind_witness :
    Tree.Decode freshTree ⟨.tree, List.replicate 20 7, []⟩ =
      (⟨[], List.replicate 20 7, none⟩, none) ∧
    Tree.Decode freshTree ⟨.blob, [], [49]⟩ =
      (freshTree, some .errUnsupportedObject) :=
  ⟨decode_empty_body_and_wrong_kind.1 (List.replicate 20 7),
   decode_empty_body_and_wrong_kind.2 freshTree ⟨.blob, [], [49]⟩ (by decide)⟩

/-- C2 counterexample: the octal mode string `"-1"` is accepted by
the parse (`strconv.ParseInt` takes a sign), its value is neither
040000 nor 0120000, yet the decoded mode 2^32−1 carries the
directory and symlink classification bits, so the entry is not a
plain file whose permission bits equal the parsed value. -/
theorem decodeFileMode_counterexample :
    goParseOctInt32 [45, 49] = .ok (-1) ∧
    (-1 : Int) ≠ 0o40000 ∧ (-1 : Int) ≠ 0o120000 ∧
    decodeFileMode [45, 49] = .ok 4294967295 ∧
    4294967295 &&& modeDirBit ≠ 0 ∧
    4294967295 &&& modeSymlinkBit ≠ 0 := by decide

/-- C2 amended: for every octal mode string the codec decodes, value
040000 yields a directory-classified mode and 0120000 a
symlink-classified mode; any other parsed value is mapped to exactly
its own 32-bit image with no classification bit added — in
particular, for nonnegative values the mode equals the parsed value,
sits below the directory bit, and sits below the symlink bit whenever
the value does (permission and executable bits preserved verbatim). -/
theorem decodeFileMode_classification :
    ∀ (s : List Nat) (i : Int), goParseOctInt32 s = .ok i →
    (i = 0o40000 → decodeFileMode s = .ok (0o40000 ||| modeDirBit)) ∧
    (i = 0o120000 → decodeFileMode s = .ok (0o120000 ||| modeSymlinkBit)) ∧
    (i ≠ 0o40000 → i ≠ 0o120000 →
      decodeFileMode s = .ok ((i % (2 ^ 32 : Int)).toNat) ∧
      (0 ≤ i →
        decodeFileMode s = .ok i.toNat ∧
        i.toNat < modeDirBit ∧
        (i < 2 ^ 27 → i.toNat < modeSymlinkBit))) := by
  intro s i hp
  have hr := goParseOctInt32_range hp
  refine ⟨?_, ?_, ?_⟩
  · intro hi
    subst hi
    unfold decodeFileMode
    rw [hp]
    decide
  · intro hi
    subst hi
    unfold decodeFileMode
    rw [hp]
    decide
  · intro hi1 hi2
    have heq : decodeFileMode s = .ok ((i % (2 ^ 32 : Int)).toNat) := by
      unfold decodeFileMode
      rw [hp]
      simp only [if_neg hi1, if_neg hi2]
    refine ⟨heq, fun h0 => ?_⟩
    have h31 : i < 2 ^ 31 := hr.2.2 h0
    have h31' : i < 2147483648 := by norm_num at h31; exact h31
    have hmod : i % (2 ^ 32 : Int) = i := by
      apply Int.emod_eq_of_lt h0
      norm_num
      omega
    refine ⟨by rw [heq, hmod], ?_, fun h27 => ?_⟩
    · simp only [modeDirBit]
      norm_num
      omega
    · have h27' : i < 134217728 := by norm_num at h27; exact h27
      simp only [modeSymlinkBit]
      norm_num
      omega

/-- Witness for C2 (amended) at the mode string `"100755"`: the
executable regular-file mode decodes to itself. -/
theorem decodeFileMode_classification_witness :
    decodeFileMode [49, 48, 48, 55, 53, 53] = .ok ((33261 : Int).toNat) ∧
    ((33261 : Int).toNat) < modeDirBit := by
  have h := (decodeFileMode_classification [49, 48, 48, 55, 53, 53] 33261
    (by decide)).2.2 (by decide) (by decide)
  have hb := h.2 (by decide)
  exact ⟨hb.1, hb.2.1⟩

/-- C1 fails on the code: the single-record directory body
`"40000 d\x00" ++ hash` is accepted by Decode, but the decoded mode
carries `os.ModeDir` (bit 31), and Encode prints that augmented
32-bit mode in octal (`"20000040000"`), so the encoded bytes do not
reproduce the accepted input, and re-decoding the encoded bytes fails
with a range error (the mode no longer fits a 32-bit int) instead of
restoring the entry list. -/
theorem tree_roundtrip_failure :
    (Tree.Decode freshTree ⟨.tree, List.replicate 20 9, dirRecordBytes⟩).2 =
      none ∧
    (Tree.Decode freshTree
        ⟨.tree, List.replicate 20 9, dirRecordBytes⟩).1.Entries =
      [⟨[100], 0o40000 ||| modeDirBit, List.replicate 20 1⟩] ∧
    Tree.EncodeBytes
        (Tree.Decode freshTree ⟨.tree, List.replicate 20 9, dirRecordBytes⟩).1 =
      [50, 48, 48, 48, 48, 48, 52, 48, 48, 48, 48, 32, 100, 0] ++
        List.replicate 20 1 ∧
    Tree.EncodeBytes
        (Tree.Decode freshTree ⟨.tree, List.replicate 20 9, dirRecordBytes⟩).1 ≠
      dirRecordBytes ∧
    (Tree.Decode freshTree
      (Tree.Encode
        (Tree.Decode freshTree ⟨.tree, List.replicate 20 9, dirRecordBytes⟩).1
        ⟨.blob, [], []⟩)).2 = some .errRange := by decide

/-- C10: `File.Lines` returns the contents split on the newline byte,
except that the one trailing empty chunk is dropped — that chunk is
empty exactly when the contents are empty or end in a newline; in
particular empty contents yield an empty list. -/
theorem file_lines_characterization :
    ∀ (name : List Nat) (mode : Nat) (content : List Nat),
    (content = [] → File.Lines ⟨name, mode, content⟩ = []) ∧
    (content.getLast? = some 10 →
      File.Lines ⟨name, mode, content⟩ = (splitOnByte 10 content).dropLast ∧
      (splitOnByte 10 content).getLast? = some []) ∧
    (content ≠ [] → content.getLast? ≠ some 10 →
      File.Lines ⟨name, mode, content⟩ = splitOnByte 10 content) := by
  intro name mode content
  refine ⟨?_, ?_, ?_⟩
  · intro h
    subst h
    simp [File.Lines, File.Contents, splitOnByte]
  · intro h
    have hl : (splitOnByte 10 content).getLast? = some [] :=
      (splitOnByte_getLast?_nil content).mpr (Or.inr h)
    constructor
    · simp only [File.Lines, File.Contents]
      rw [if_pos hl]
    · exact hl
  · intro h1 h2
    have hl : (splitOnByte 10 content).getLast? ≠ some [] := by
      intro hc
      rcases (splitOnByte_getLast?_nil content).mp hc with h | h
      · exact h1 h
      · exact h2 h
    simp only [File.Lines, File.Contents]
    rw [if_neg hl]

/-- Witness for C10 at contents `"a\n"`: one line `"a"`, the trailing
empty chunk dropped. -/
theorem file_lines_witness :
    File.Lines ⟨[], 0, [97, 10]⟩ = [[97]] :=
  ((file_lines_characterization [] 0 [97, 10]).2.1 (by decide)).1.trans
    (by decide)

/-- C7: the name→entry index is built at most once, on the first
lookup, from the current entry list (and stored on the receiver);
a lookup on a receiver whose index exists reuses it and leaves the
receiver unchanged; looking up a duplicated name resolves to the last
entry of that name in list order; and a lookup never changes the
entry list. -/
theorem tree_entry_index :
    ∀ (t : Tree) (n : List Nat),
    (t.m = none →
      (t.entry n).2 = { t with m := some (buildMap t.Entries) } ∧
      (t.entry n).1 = (match buildMap t.Entries n with
        | some e => .ok e
        | none => .error .errEntryNotFound)) ∧
    (∀ mp, t.m = some mp →
      (t.entry n).2 = t ∧
      (t.entry n).1 = (match mp n with
        | some e => .ok e
        | none => .error .errEntryNotFound)) ∧
    ((t.entry n).2.Entries = t.Entries) ∧
    (∀ es : List TreeEntry,
      buildMap es n = (es.filter (fun e => e.Name = n)).getLast?) := by
  intro t n
  refine ⟨?_, ?_, ?_, ?_⟩
  · intro hm
    simp only [Tree.entry, hm]
    cases hbn : buildMap t.Entries n <;> simp [hbn]
  · intro mp hm
    simp only [Tree.entry, hm]
    have ht : { t with m := some mp } = t := by
      obtain ⟨tE, tH, tm⟩ := t
      simp only at hm
      rw [hm]
    cases hbn : mp n <;> simp [hbn, ht]
  · simp only [Tree.entry]
    cases t.m with
    | none => cases hbn : buildMap t.Entries n <;> simp [hbn]
    | some mp => cases hbn : mp n <;> simp [hbn]
  · intro es
    unfold buildMap
    rw [buildMap_foldl n es]
    cases hfe : (es.filter (fun e => e.Name = n)).getLast? <;> simp [hfe]

/-- Witness for C7 at a two-entry tree with a duplicated name: the
lookup returns the second (later) entry and stores the index. -/
theorem tree_entry_index_witness :
    ((⟨[⟨[97], 1, [5]⟩, ⟨[97], 2, [6]⟩], [], none⟩ : Tree).entry [97]).1 =
      .ok ⟨[97], 2, [6]⟩ ∧
    ((⟨[⟨[97], 1, [5]⟩, ⟨[97], 2, [6]⟩], [], none⟩ : Tree).entry [97]).2.Entries =
      [⟨[97], 1, [5]⟩, ⟨[97], 2, [6]⟩] := by
  have h := tree_entry_index ⟨[⟨[97], 1, [5]⟩, ⟨[97], 2, [6]⟩], [], none⟩ [97]
  refine ⟨?_, h.2.2.1⟩
  rw [(h.1 rfl).2]
  rw [h.2.2.2 [⟨[97], 1, [5]⟩, ⟨[97], 2, [6]⟩]]
  decide

/-- C4: the path resolver descends through every segment but the
last via `dir` (any `dir` failure aborts the loop); the final segment
is looked up in the index of the tree reached, with no storage
access; `dir` fails exactly when the segment entry is missing, the
backing object is absent, or the backing object's kind is not tree —
always with the one error "directory not found" — and otherwise
decodes the fetched tree object and descends into it. -/
theorem findEntry_resolution :
    ∀ (s : Storage) (t : Tree) (p : List Nat) (ps : List (List Nat)),
    (ps ≠ [] → Tree.findEntryAux s t (p :: ps) =
      (match t.dir s p with
       | (.error e, t1) => (.error e, t1)
       | (.ok sub, t1) => ((Tree.findEntryAux s sub ps).1, t1))) ∧
    (Tree.findEntryAux s t [p] = t.entry p) ∧
    ((t.dir s p).1 = .error .errDirNotFound ↔
      ((∃ er, (t.entry p).1 = .error er) ∨
       (∃ e, (t.entry p).1 = .ok e ∧
         (s e.Hash = none ∨ ∃ o, s e.Hash = some o ∧ o.type ≠ .tree)))) ∧
    (∀ er, (t.dir s p).1 = .error er → er = .errDirNotFound) ∧
    (∀ e o, (t.entry p).1 = .ok e → s e.Hash = some o → o.type = .tree →
      (t.dir s p).1 = .ok (Tree.Decode freshTree o).1) := by
  intro s t p ps
  have hchar : ∀ (r1 : Except GoErr TreeEntry) (t1 : Tree),
      t.entry p = (r1, t1) →
      (∀ er, r1 = .error er → (t.dir s p).1 = .error .errDirNotFound) ∧
      (∀ e, r1 = .ok e → s e.Hash = none →
        (t.dir s p).1 = .error .errDirNotFound) ∧
      (∀ e o, r1 = .ok e → s e.Hash = some o → o.type ≠ .tree →
        (t.dir s p).1 = .error .errDirNotFound) ∧
      (∀ e o, r1 = .ok e → s e.Hash = some o → o.type = .tree →
        (t.dir s p).1 = .ok (Tree.Decode freshTree o).1) := by
    intro r1 t1 hte
    refine ⟨?_, ?_, ?_, ?_⟩
    · intro er her
      subst her
      simp [Tree.dir, hte]
    · intro e he hget
      subst he
      simp [Tree.dir, hte, hget]
    · intro e o he hget hto
      subst he
      simp [Tree.dir, hte, hget, hto]
    · intro e o he hget hto
      subst he
      simp [Tree.dir, hte, hget, hto]
  refine ⟨?_, ?_, ?_, ?_, ?_⟩
  · intro hps
    cases ps with
    | nil => exact absurd rfl hps
    | cons q qs => rfl
  · rfl
  · rcases hte : t.entry p with ⟨r1, t1⟩
    have hc := hchar r1 t1 hte
    cases r1 with
    | error er =>
      rw [hc.1 er rfl]
      exact ⟨fun _ => Or.inl ⟨er, rfl⟩, fun _ => rfl⟩
    | ok e =>
      cases hget : s e.Hash with
      | none =>
        rw [hc.2.1 e rfl hget]
        exact ⟨fun _ => Or.inr ⟨e, rfl, Or.inl hget⟩, fun _ => rfl⟩
      | some o =>
        by_cases hto : o.type = .tree
        · rw [hc.2.2.2 e o rfl hget hto]
          constructor
          · intro hcon
            simp at hcon
          · intro hdis
            exfalso
            rcases hdis with ⟨er, her⟩ | ⟨e', he', hrest⟩
            · simp at her
            · simp only [Except.ok.injEq] at he'
              subst he'
              rcases hrest with hn | ⟨o', ho', hto'⟩
              · rw [hget] at hn
                simp at hn
              · rw [hget] at ho'
                simp only [Option.some.injEq] at ho'
                subst ho'
                exact hto' hto
        · rw [hc.2.2.1 e o rfl hget hto]
          exact ⟨fun _ => Or.inr ⟨e, rfl, Or.inr ⟨o, hget, hto⟩⟩,
            fun _ => rfl⟩
  · intro er her
    rcases hte : t.entry p with ⟨r1, t1⟩
    have hc := hchar r1 t1 hte
    cases r1 with
    | error e' =>
      rw [hc.1 e' rfl] at her
      exact (Except.error.inj her).symm
    | ok e =>
      cases hget : s e.Hash with
      | none =>
        rw [hc.2.1 e rfl hget] at her
        exact (Except.error.inj her).symm
      | some o =>
        by_cases hto : o.type = .tree
        · rw [hc.2.2.2 e o rfl hget hto] at her
          simp at her
        · rw [hc.2.2.1 e o rfl hget hto] at her
          exact (Except.error.inj her).symm
  · intro e o he hget hto
    rcases hte : t.entry p with ⟨r1, t1⟩
    have hc := hchar r1 t1 hte
    rw [hte] at he
    simp only at he
    exact hc.2.2.2 e o he hget hto

/-- Witness for C4: in the two-level scenario, resolving
`"d/f"` descends through `dir` at `"d"` and `dir` succeeds with the
decoded subtree. -/
theorem findEntry_resolution_witness :
    Tree.findEntryAux scenarioStorage scenarioRoot [[100], [102]] =
      (match scenarioRoot.dir scenarioStorage [100] with
       | (.error e, t1) => (.error e, t1)
       | (.ok sub, t1) =>
         ((Tree.findEntryAux scenarioStorage sub [[102]]).1, t1)) ∧
    (scenarioRoot.dir scenarioStorage [100]).1 =
      .ok (Tree.Decode freshTree
        ⟨.tree, hDir, [49, 48, 48, 54, 52, 52, 32, 102, 0] ++ hBlob⟩).1 := by
  have h := findEntry_resolution scenarioStorage scenarioRoot [100] [[102]]
  refine ⟨h.1 (by decide), ?_⟩
  exact h.2.2.2.2 ⟨[100], 0o40000 + modeDirBit, hDir⟩
    ⟨.tree, hDir, [49, 48, 48, 54, 52, 52, 32, 102, 0] ++ hBlob⟩
    (by decide) (by decide) (by decide)

/-- C3 counterexample: for entry `"x"` of the scenario root, the
entry lookup succeeds, the backing object is present, and its kind is
commit — not tree — yet `File` fails with "file not found", a fourth
failure case beyond the three the claim lists; and for the
two-segment path `"d/f"` the returned File's name is the whole path
argument, not the leaf entry's name `"f"`. -/
theorem file_lookup_counterexample :
    (Tree.File scenarioStorage scenarioRoot [120]).1 =
      .error .errFileNotFound ∧
    (scenarioRoot.entry [120]).1 = .ok ⟨[120], 0o160000, hCommit⟩ ∧
    (Tree.findEntry scenarioStorage scenarioRoot [120]).1 =
      .ok ⟨[120], 0o160000, hCommit⟩ ∧
    scenarioStorage hCommit = some ⟨.commit, hCommit, []⟩ ∧
    ObjectType.commit ≠ .tree ∧
    (Tree.File scenarioStorage scenarioRoot [100, 47, 102]).1 =
      .ok ⟨[100, 47, 102], 0o100644, [104, 105]⟩ ∧
    (Tree.findEntry scenarioStorage scenarioRoot [100, 47, 102]).1 =
      .ok ⟨[102], 0o100644, hBlob⟩ ∧
    ([100, 47, 102] : List Nat) ≠ [102] := by decide

/-- C3 amended: `Tree.File` fails — always with the single error
"file not found" — exactly when the resolver fails, the backing
object is absent, or the backing object's kind is anything other than
blob (tree, commit or tag); otherwise it returns a File joining the
path argument (not the leaf entry's base name) and the entry's mode
with the decoded Blob. -/
theorem file_lookup_amended :
    ∀ (s : Storage) (t : Tree) (path : List Nat),
    ((Tree.File s t path).1 = .error .errFileNotFound ↔
      ((∃ er, (Tree.findEntry s t path).1 = .error er) ∨
       (∃ e, (Tree.findEntry s t path).1 = .ok e ∧
         (s e.Hash = none ∨ ∃ o, s e.Hash = some o ∧ o.type ≠ .blob)))) ∧
    (∀ er, (Tree.File s t path).1 = .error er → er = .errFileNotFound) ∧
    (∀ e o, (Tree.findEntry s t path).1 = .ok e → s e.Hash = some o →
      o.type = .blob →
      (Tree.File s t path).1 = .ok (newFile path e.Mode o.content)) := by
  intro s t path
  have hchar : ∀ (r1 : Except GoErr TreeEntry) (t1 : Tree),
      t.findEntry s path = (r1, t1) →
      (∀ er, r1 = .error er →
        (Tree.File s t path).1 = .error .errFileNotFound) ∧
      (∀ e, r1 = .ok e → s e.Hash = none →
        (Tree.File s t path).1 = .error .errFileNotFound) ∧
      (∀ e o, r1 = .ok e → s e.Hash = some o → o.type ≠ .blob →
        (Tree.File s t path).1 = .error .errFileNotFound) ∧
      (∀ e o, r1 = .ok e → s e.Hash = some o → o.type = .blob →
        (Tree.File s t path).1 = .ok (newFile path e.Mode o.content)) := by
    intro r1 t1 hfe
    refine ⟨?_, ?_, ?_, ?_⟩
    · intro er her
      subst her
      simp [Tree.File, hfe]
    · intro e he hget
      subst he
      simp [Tree.File, hfe, hget]
    · intro e o he hget hto
      subst he
      simp [Tree.File, hfe, hget, hto]
    · intro e o he hget hto
      subst he
      simp [Tree.File, hfe, hget, hto]
  refine ⟨?_, ?_, ?_⟩
  · rcases hfe : t.findEntry s path with ⟨r1, t1⟩
    have hc := hchar r1 t1 hfe
    cases r1 with
    | error er =>
      rw [hc.1 er rfl]
      exact ⟨fun _ => Or.inl ⟨er, rfl⟩, fun _ => rfl⟩
    | ok e =>
      cases hget : s e.Hash with
      | none =>
        rw [hc.2.1 e rfl hget]
        exact ⟨fun _ => Or.inr ⟨e, rfl, Or.inl hget⟩, fun _ => rfl⟩
      | some o =>
        by_cases hto : o.type = .blob
        · rw [hc.2.2.2 e o rfl hget hto]
          constructor
          · intro hcon
            simp at hcon
          · intro hdis
            exfalso
            rcases hdis with ⟨er, her⟩ | ⟨e', he', hrest⟩
            · simp at her
            · simp only [Except.ok.injEq] at he'
              subst he'
              rcases hrest with hn | ⟨o', ho', hto'⟩
              · rw [hget] at hn
                simp at hn
              · rw [hget] at ho'
                simp only [Option.some.injEq] at ho'
                subst ho'
                exact hto' hto
        · rw [hc.2.2.1 e o rfl hget hto]
          exact ⟨fun _ => Or.inr ⟨e, rfl, Or.inr ⟨o, hget, hto⟩⟩,
            fun _ => rfl⟩
  · intro er her
    rcases hfe : t.findEntry s path with ⟨r1, t1⟩
    have hc := hchar r1 t1 hfe
    cases r1 with
    | error e' =>
      rw [hc.1 e' rfl] at her
      exact (Except.error.inj her).symm
    | ok e =>
      cases hget : s e.Hash with
      | none =>
        rw [hc.2.1 e rfl hget] at her
        exact (Except.error.inj her).symm
      | some o =>
        by_cases hto : o.type = .blob
        · rw [hc.2.2.2 e o rfl hget hto] at her
          simp at her
        · rw [hc.2.2.1 e o rfl hget hto] at her
          exact (Except.error.inj her).symm
  · intro e o he hget hto
    rcases hfe : t.findEntry s path with ⟨r1, t1⟩
    have hc := hchar r1 t1 hfe
    rw [hfe] at he
    simp only at he
    exact hc.2.2.2 e o he hget hto

/-- Witness for C3 (amended): resolving `"d/f"` against the scenario
returns the File named by the full path with the blob's bytes. -/
theorem file_lookup_amended_witness :
    (Tree.File scenarioStorage scenarioRoot [100, 47, 102]).1 =
      .ok (newFile [100, 47, 102] 0o100644 [104, 105]) := by
  exact (file_lookup_amended scenarioStorage scenarioRoot [100, 47, 102]).2.2
    ⟨[102], 0o100644, hBlob⟩ ⟨.blob, hBlob, [104, 105]⟩
    (by decide) (by decide) (by decide)

set_option maxRecDepth 1000000 in
/-- C5: walking the chain of 1025 nested single-entry directories
fails with the dedicated `ErrMaxTreeDepth` on the 1024th `Next`
call — the call that would push the 1025th frame (a run given fuel
for only the first 1023 calls exhausts it without any error, so every
earlier call succeeded); the chain of exactly 1024 nested directories
is walked to completion, yielding its 1024 objects and ending in
`io.EOF`, never raising the depth error. -/
theorem walker_depth_guard :
    walkRun (chainStorage 1024) 1026 [⟨[], chainRoot, 0⟩] 0 =
      some (.ok 1024) ∧
    walkRun (chainStorage 1025) 1023 [⟨[], chainRoot, 0⟩] 0 = none ∧
    walkRun (chainStorage 1025) 1024 [⟨[], chainRoot, 0⟩] 0 =
      some (.error .errMaxTreeDepth) := by
  refine ⟨by decide, by decide, by decide⟩

/-- C6: for both filtered iterators, `ForEach` hands each produced
item to the callback in encounter order; if the callback never
signals, it returns nil when the stream ends in `io.EOF` and the
walker's error unchanged otherwise, after delivering the whole
stream; if the callback first signals at some item, exactly the items
up to and including that one are delivered, and `ForEach` returns nil
when the signal is the shared stop sentinel `core.ErrStop` and that
exact error otherwise; on every such exit the iterator's walker is
closed exactly once. -/
theorem iter_forEach_protocol :
    (∀ (fuel : Nat) (it : FileIter) (cb : File → Option GoErr)
       (fs : List File) (e : GoErr),
      fileStream fuel ⟨NewTreeWalker it.w.s it.w.t⟩ = some (fs, e) →
      (∀ f ∈ fs, cb f = none) →
      FileIter.ForEach it cb fuel =
        some ⟨if e = .eof then .ok () else .error e, fs, 1⟩) ∧
    (∀ (fuel : Nat) (it : FileIter) (cb : File → Option GoErr)
       (fs1 : List File) (f : File) (fs2 : List File) (e ec : GoErr),
      fileStream fuel ⟨NewTreeWalker it.w.s it.w.t⟩ =
        some (fs1 ++ f :: fs2, e) →
      (∀ g ∈ fs1, cb g = none) → cb f = some ec →
      FileIter.ForEach it cb fuel =
        some ⟨if ec = .errStop then .ok () else .error ec, fs1 ++ [f], 1⟩) ∧
    (∀ (fuel : Nat) (it : TreeIter) (cb : Tree → Option GoErr)
       (ts : List Tree) (e : GoErr),
      treeStream fuel it = some (ts, e) → (∀ x ∈ ts, cb x = none) →
      TreeIter.ForEach it cb fuel =
        some ⟨if e = .eof then .ok () else .error e, ts, 1⟩) ∧
    (∀ (fuel : Nat) (it : TreeIter) (cb : Tree → Option GoErr)
       (ts1 : List Tree) (x : Tree) (ts2 : List Tree) (e ec : GoErr),
      treeStream fuel it = some (ts1 ++ x :: ts2, e) →
      (∀ g ∈ ts1, cb g = none) → cb x = some ec →
      TreeIter.ForEach it cb fuel =
        some ⟨if ec = .errStop then .ok () else .error ec, ts1 ++ [x], 1⟩) := by
  refine ⟨?_, ?_, ?_, ?_⟩
  · intro fuel it cb fs e hs hcb
    exact fileForEachLoop_continue fuel ⟨NewTreeWalker it.w.s it.w.t⟩
      cb fs e hs hcb
  · intro fuel it cb fs1 f fs2 e ec hs hcb hcf
    exact fileForEachLoop_signal fuel ⟨NewTreeWalker it.w.s it.w.t⟩
      cb fs1 f fs2 e ec hs hcb hcf
  · intro fuel it cb ts e hs hcb
    exact treeForEachLoop_continue fuel it cb ts e hs hcb
  · intro fuel it cb ts1 x ts2 e ec hs hcb hcx
    exact treeForEachLoop_signal fuel it cb ts1 x ts2 e ec hs hcb hcx

/-- Witness for C6: over the scenario storage, the file iterator
delivers `a.txt`, `b/f`, `d.txt` (pre-order) and returns nil at end
of sequence; the tree iterator delivers the one subtree. -/
theorem iter_forEach_protocol_witness :
    FileIter.ForEach (NewFileIter scenarioStorage iterRoot) cbContinue 10 =
      some ⟨.ok (), [⟨[97, 46, 116, 120, 116], 0o100644, [104, 105]⟩,
        ⟨[98, 47, 102], 0o100644, [104, 105]⟩,
        ⟨[100, 46, 116, 120, 116], 0o100644, [104, 105]⟩], 1⟩ ∧
    TreeIter.ForEach (NewTreeIter scenarioStorage iterRoot) cbTreeContinue 10 =
      some ⟨.ok (), [⟨[⟨[102], 0o100644, hBlob⟩], hDir, none⟩], 1⟩ := by
  constructor
  · exact iter_forEach_protocol.1 10 (NewFileIter scenarioStorage iterRoot)
      cbContinue
      [⟨[97, 46, 116, 120, 116], 0o100644, [104, 105]⟩,
       ⟨[98, 47, 102], 0o100644, [104, 105]⟩,
       ⟨[100, 46, 116, 120, 116], 0o100644, [104, 105]⟩]
      .eof (by decide) (fun f _ => rfl)
  · exact iter_forEach_protocol.2.2.1 10 (NewTreeIter scenarioStorage iterRoot)
      cbTreeContinue [⟨[⟨[102], 0o100644, hBlob⟩], hDir, none⟩]
      .eof rfl (fun x _ => rfl)

/-- C9: `FileIter.ForEach` drives a fresh private walker bound to the
receiver's storage handle and root tree, so its outcome is exactly
the loop on that fresh walker and is independent of the receiver's
own traversal stack: two receivers sharing storage and root but in
arbitrary walker states yield identical `ForEach` outcomes, and the
receiver (passed by value here, matching a method that never writes
through it) is untouched, so a later `Next` resumes from the position
it had before. -/
theorem fileIter_forEach_private_walker :
    ∀ (w₁ w₂ : TreeWalker) (cb : File → Option GoErr) (fuel : Nat),
    w₁.s = w₂.s → w₁.t = w₂.t →
    FileIter.ForEach ⟨w₁⟩ cb fuel = FileIter.ForEach ⟨w₂⟩ cb fuel ∧
    FileIter.ForEach ⟨w₁⟩ cb fuel =
      fileForEachLoop cb fuel ⟨NewTreeWalker w₁.s w₁.t⟩ := by
  intro w₁ w₂ cb fuel hs ht
  constructor
  · simp only [FileIter.ForEach]
    rw [hs, ht]
  · rfl

/-- Witness for C9: a receiver whose private stack is already
exhausted runs the same full traversal as a fresh iterator. -/
theorem fileIter_forEach_private_walker_witness :
    FileIter.ForEach ⟨⟨scenarioStorage, iterRoot, []⟩⟩ cbContinue 10 =
      FileIter.ForEach ⟨NewTreeWalker scenarioStorage iterRoot⟩ cbContinue 10 :=
  (fileIter_forEach_private_walker ⟨scenarioStorage, iterRoot, []⟩
    (NewTreeWalker scenarioStorage iterRoot) cbContinue 10 rfl rfl).1

end GoGit
